import Mathlib

open scoped List

/-!
Verification of the TapIn Wordle leaderboard server core
(`services/leaderboard_service.py` and `models.py`).

The Python code is shallowly embedded:
* `Score` and `LeaderboardEntry` mirror the dataclasses in `models.py`
  (Python `int` becomes `Int`; the uuid `id` and the random username draws
  become explicit parameters of the operations that consume randomness).
* The in-memory store `_scores : Dict[str, List[Score]]` becomes an
  insertion-ordered association list, with lookup/update helpers mirroring
  Python `dict` semantics (first-match lookup, in-place value update,
  new keys appended at the end, `pop(k, None)` removal).
* `submit_score` returns the `Except` result together with the store that
  results from executing the method body; the `raise` happens before any
  mutation, so the error branch returns the incoming store unchanged.
* Python's stable `sorted(scores, key=lambda s: (s.guesses, s.time_seconds))`
  is modelled by `List.insertionSort` with the lexicographic preorder
  `scoreLe`; a stable sort for a total preorder is unique, so this is the
  function computed by the source.
* `get_leaderboard`'s body after the store read (lines 196-214) is factored
  as `rankEntries` over the day's score list; Python slicing `l[:limit]`
  (including negative limits) is `pyTake`, and `"🟩" * n` is `pyStrMul`.
-/

/-- Mirror of the `Score` dataclass in `models.py` (field `created_at` has
been removed from the source; `id` is the uuid string). -/
structure Score where
  username : String
  guesses : Int
  time_seconds : Int
  puzzle_date : String
  id : String
deriving Repr, DecidableEq

/-- Mirror of the `LeaderboardEntry` dataclass in `models.py`. -/
structure LeaderboardEntry where
  rank : Nat
  username : String
  guesses : Int
  guesses_display : String
  time_seconds : Int
deriving Repr, DecidableEq

/-- The `ADJECTIVES` word list of `leaderboard_service.py`. -/
def ADJECTIVES : List String :=
  ["Swift", "Brave", "Clever", "Mighty", "Noble",
   "Bold", "Quick", "Sharp", "Bright", "Keen",
   "Agile", "Fierce", "Lucky", "Calm", "Wise",
   "Golden", "Silver", "Cosmic", "Epic", "Grand",
   "Royal", "Mystic", "Ancient", "Stellar", "Thunder"]

/-- The `NOUNS` word list of `leaderboard_service.py`. -/
def NOUNS : List String :=
  ["Falcon", "Otter", "Wolf", "Eagle", "Bear",
   "Tiger", "Lion", "Hawk", "Fox", "Deer",
   "Panda", "Koala", "Shark", "Dragon", "Phoenix",
   "Mustang", "Aggie", "Knight", "Warrior", "Champion",
   "Legend", "Pioneer", "Voyager", "Ranger", "Scout"]

/-- `LeaderboardService.generate_username`: `random.choice(ADJECTIVES)`
and `random.choice(NOUNS)` each return an element at a uniformly drawn
valid index; the two random draws are passed in as the indices
`ai` and `ni` (reduced mod the list length, so every oracle value picks an
actual element), and the result is the separator-free concatenation. -/
def generate_username (ai ni : Nat) : String :=
  ADJECTIVES.get ⟨ai % ADJECTIVES.length, Nat.mod_lt ai (by decide)⟩ ++
    NOUNS.get ⟨ni % NOUNS.length, Nat.mod_lt ni (by decide)⟩

/-- The in-memory store `_scores : Dict[str, List[Score]]`, as an
insertion-ordered association list (Python dicts preserve insertion order). -/
abbrev Store := List (String × List Score)

/-- Python `dict` lookup `_scores.get(d)`: first matching key. -/
def storeGet (st : Store) (d : String) : Option (List Score) :=
  match st with
  | [] => none
  | (k, v) :: rest => if k = d then some v else storeGet rest d

/-- `self._scores.get(puzzle_date, [])`. -/
def getScores (st : Store) (d : String) : List Score :=
  (storeGet st d).getD []

/-- Python `puzzle_date in self._scores`. -/
def storeContains (st : Store) (d : String) : Bool :=
  (storeGet st d).isSome

/-- `self._scores[puzzle_date].append(score)`: append to the value of the
(first) entry with key `d`, leaving every other entry untouched. -/
def storeAppend (st : Store) (d : String) (s : Score) : Store :=
  match st with
  | [] => []
  | (k, v) :: rest =>
      if k = d then (k, v ++ [s]) :: rest else (k, v) :: storeAppend rest d s

/-- `self._scores.pop(puzzle_date, None)`: remove the entry with key `d`
if present, otherwise a no-op. -/
def storePop (st : Store) (d : String) : Store :=
  match st with
  | [] => []
  | (k, v) :: rest => if k = d then rest else (k, v) :: storePop rest d

/-- `LeaderboardService.submit_score` (lines 111-167).  The random draws for
`generate_username` and the generated uuid are explicit parameters
(`ai`, `ni`, `idStr`).  The returned store is the state of `self._scores`
when the method finishes: the `raise ValueError` for out-of-range `guesses`
happens before any mutation, so the error branch returns `st` unchanged.
Note the source validates only `guesses`; `time_seconds` is not checked,
and the username is generated only when the argument is `None`. -/
def submit_score (st : Store) (guesses time_seconds : Int) (puzzle_date : String)
    (username : Option String) (ai ni : Nat) (idStr : String) :
    Except String Score × Store :=
  if ¬ (1 ≤ guesses ∧ guesses ≤ 6) then
    (Except.error "Guesses must be between 1 and 6", st)
  else
    let uname :=
      match username with
      | none => generate_username ai ni
      | some u => u
    let score : Score :=
      { username := uname, guesses := guesses, time_seconds := time_seconds,
        puzzle_date := puzzle_date, id := idStr }
    let st1 := if storeContains st puzzle_date then st else st ++ [(puzzle_date, [])]
    (Except.ok score, storeAppend st1 puzzle_date score)

/-- Python string repetition `s * m` for a nonnegative count. -/
def strRepeat (s : String) : Nat → String
  | 0 => ""
  | m + 1 => s ++ strRepeat s m

/-- Python `s * n` for an `int` count (`n ≤ 0` yields the empty string). -/
def pyStrMul (s : String) (n : Int) : String :=
  strRepeat s n.toNat

/-- `LeaderboardService._format_guesses_emoji`: `"🟩" * guesses`. -/
def _format_guesses_emoji (guesses : Int) : String :=
  pyStrMul "🟩" guesses

/-- The comparison computed by `sorted(..., key=lambda s: (s.guesses,
s.time_seconds))`: lexicographic order on the key tuple. -/
def scoreLe (a b : Score) : Prop :=
  a.guesses < b.guesses ∨ (a.guesses = b.guesses ∧ a.time_seconds ≤ b.time_seconds)

instance : DecidableRel scoreLe := fun a b => by
  unfold scoreLe; infer_instance

instance : IsTotal Score scoreLe :=
  ⟨fun a b => by unfold scoreLe; omega⟩

instance : IsTrans Score scoreLe :=
  ⟨fun a b c hab hbc => by unfold scoreLe at *; omega⟩

/-- Python slicing `l[:n]` for an `int` bound: a nonnegative `n` keeps the
first `n` elements, a negative `n` drops the last `|n|`. -/
def pyTake {α : Type} (l : List α) (n : Int) : List α :=
  l.take (if 0 ≤ n then n.toNat else l.length - (-n).toNat)

/-- The `LeaderboardEntry(...)` construction in the loop body of
`get_leaderboard` (lines 205-211). -/
def mkEntry (rank : Nat) (s : Score) : LeaderboardEntry :=
  { rank := rank, username := s.username, guesses := s.guesses,
    guesses_display := _format_guesses_emoji s.guesses,
    time_seconds := s.time_seconds }

/-- The `for rank, score in enumerate(top_scores, start=1)` loop of
`get_leaderboard` (lines 203-212). -/
def mkEntries (rank : Nat) : List Score → List LeaderboardEntry
  | [] => []
  | s :: rest => mkEntry rank s :: mkEntries (rank + 1) rest

/-- The ranking computation of `get_leaderboard` (lines 196-214), factored
over the day's score list: stable sort by `(guesses, time_seconds)`,
truncate to `limit`, then number the truncated output from 1.  This is the
spec's `Ranker.rank(records, limit)`. -/
def rankEntries (scores : List Score) (limit : Int) : List LeaderboardEntry :=
  mkEntries 1 (pyTake (List.insertionSort scoreLe scores) limit)

/-- `LeaderboardService.get_leaderboard` (lines 173-214). -/
def get_leaderboard (st : Store) (puzzle_date : String) (limit : Int := 5) :
    List LeaderboardEntry :=
  rankEntries (getScores st puzzle_date) limit

/-- `LeaderboardService.get_all_dates`. -/
def get_all_dates (st : Store) : List String :=
  st.map Prod.fst

/-- `LeaderboardService.clear_scores`.  Python's `if puzzle_date:` is a
truthiness test, so both `None` and the empty string clear the whole store. -/
def clear_scores (st : Store) (puzzle_date : Option String := none) : Store :=
  match puzzle_date with
  | some d => if d = "" then [] else storePop st d
  | none => []

/-- Store states reachable from the empty store by any sequence of service
calls.  `get_leaderboard` and `get_all_dates` do not modify `self._scores`,
so only `submit_score` and `clear_scores` appear as transitions. -/
inductive Reachable : Store → Prop where
  | empty : Reachable []
  | submit (st : Store) (g t : Int) (d : String) (u : Option String)
      (ai ni : Nat) (idStr : String) (sc : Score) (st2 : Store) :
      Reachable st → submit_score st g t d u ai ni idStr = (Except.ok sc, st2) →
      Reachable st2
  | clear (st : Store) (od : Option String) :
      Reachable st → Reachable (clear_scores st od)

/-- The guesses-range invariant, over every record stored anywhere in the
association list. -/
def storeValid (st : Store) : Prop :=
  ∀ p ∈ st, ∀ s ∈ p.2, 1 ≤ s.guesses ∧ s.guesses ≤ 6

/-! ### Helper lemmas about the store operations -/

/-- Elimination for a successful `submit_score`: the guard passed, the
returned record has exactly the submitted fields, and the new store is the
day-initialised store with the record appended. -/
theorem submit_score_ok {st : Store} {g t : Int} {d : String} {u : Option String}
    {ai ni : Nat} {idStr : String} {sc : Score} {st2 : Store}
    (h : submit_score st g t d u ai ni idStr = (Except.ok sc, st2)) :
    (1 ≤ g ∧ g ≤ 6) ∧
    sc = { username := u.getD (generate_username ai ni),
           guesses := g, time_seconds := t, puzzle_date := d, id := idStr } ∧
    st2 = storeAppend (if storeContains st d then st else st ++ [(d, [])]) d sc := by
  unfold submit_score at h
  by_cases hg : 1 ≤ g ∧ g ≤ 6
  · rw [if_neg (by exact not_not_intro hg)] at h
    simp only [Prod.mk.injEq, Except.ok.injEq] at h
    refine ⟨hg, ?_, ?_⟩
    · rw [← h.1]
      cases u <;> rfl
    · rw [← h.2, ← h.1]
  · rw [if_pos hg] at h
    simp only [Prod.mk.injEq] at h
    exact absurd h.1 (by simp)

theorem storeGet_append (st l2 : Store) (d : String) :
    storeGet (st ++ l2) d =
      match storeGet st d with
      | some v => some v
      | none => storeGet l2 d := by
  induction st with
  | nil => simp [storeGet]
  | cons p rest ih =>
      obtain ⟨k, v⟩ := p
      by_cases hk : k = d
      · simp [storeGet, hk]
      · simpa [storeGet, hk] using ih

theorem storeGet_storeAppend_self {st : Store} {d : String} {v : List Score}
    (h : storeGet st d = some v) (s : Score) :
    storeGet (storeAppend st d s) d = some (v ++ [s]) := by
  induction st with
  | nil => simp [storeGet] at h
  | cons p rest ih =>
      obtain ⟨k, w⟩ := p
      by_cases hk : k = d
      · simp [storeGet, hk] at h
        simp [storeAppend, storeGet, hk, h]
      · simp [storeGet, hk] at h
        simp [storeAppend, storeGet, hk, ih h]

theorem storeGet_storeAppend_ne {st : Store} {d d2 : String} (hne : d2 ≠ d) (s : Score) :
    storeGet (storeAppend st d s) d2 = storeGet st d2 := by
  induction st with
  | nil => simp [storeAppend]
  | cons p rest ih =>
      obtain ⟨k, w⟩ := p
      by_cases hk : k = d
      · subst hk
        simp [storeAppend, storeGet, Ne.symm hne]
      · by_cases hk2 : k = d2
        · subst hk2
          simp [storeAppend, storeGet, hk, hne]
        · simp [storeAppend, storeGet, hk, hk2, ih]

/-- The store after a successful `submit_score`: the day's list gains
exactly the returned record at its end. -/
theorem submit_ok_getScores_self {st : Store} {g t : Int} {d : String} {u : Option String}
    {ai ni : Nat} {idStr : String} {sc : Score} {st2 : Store}
    (h : submit_score st g t d u ai ni idStr = (Except.ok sc, st2)) :
    getScores st2 d = getScores st d ++ [sc] := by
  obtain ⟨-, -, hst⟩ := submit_score_ok h
  subst hst
  by_cases hc : storeContains st d
  · obtain ⟨v, hv⟩ := Option.isSome_iff_exists.mp hc
    simp [hc, getScores, storeGet_storeAppend_self hv, hv]
  · have hnone : storeGet st d = none := by
      cases hv : storeGet st d with
      | none => rfl
      | some v => exact absurd (by simp [storeContains, hv]) hc
    have hcup : storeGet (st ++ [(d, [])]) d = some [] := by
      rw [storeGet_append, hnone]
      simp [storeGet]
    simp [hc, getScores, storeGet_storeAppend_self hcup, hnone]

/-- The store after a successful `submit_score`: every other day's list is
unchanged. -/
theorem submit_ok_getScores_other {st : Store} {g t : Int} {d : String} {u : Option String}
    {ai ni : Nat} {idStr : String} {sc : Score} {st2 : Store}
    (h : submit_score st g t d u ai ni idStr = (Except.ok sc, st2))
    {d2 : String} (hne : d2 ≠ d) :
    getScores st2 d2 = getScores st d2 := by
  obtain ⟨-, -, hst⟩ := submit_score_ok h
  subst hst
  by_cases hc : storeContains st d
  · simp [hc, getScores, storeGet_storeAppend_ne hne]
  · rw [if_neg hc]
    unfold getScores
    rw [storeGet_storeAppend_ne hne, storeGet_append]
    cases hv : storeGet st d2 with
    | some v => rfl
    | none => simp [storeGet, Ne.symm hne]

theorem storeGet_mem {st : Store} {d : String} {v : List Score}
    (h : storeGet st d = some v) : (d, v) ∈ st := by
  induction st with
  | nil => simp [storeGet] at h
  | cons p rest ih =>
      obtain ⟨k, w⟩ := p
      by_cases hk : k = d
      · subst hk
        simp [storeGet] at h
        subst h
        exact List.mem_cons_self _ _
      · simp only [storeGet, if_neg hk] at h
        exact List.mem_cons_of_mem _ (ih h)

theorem storeValid_storeAppend {st : Store} (hv : storeValid st) {d : String} {s : Score}
    (hs : 1 ≤ s.guesses ∧ s.guesses ≤ 6) : storeValid (storeAppend st d s) := by
  induction st with
  | nil => intro p hp; simp [storeAppend] at hp
  | cons q rest ih =>
      obtain ⟨k, w⟩ := q
      have hv_head := hv (k, w) (List.mem_cons_self _ _)
      have hv_rest : storeValid rest := fun p hp => hv p (List.mem_cons_of_mem _ hp)
      intro p hp
      by_cases hk : k = d
      · rw [storeAppend, if_pos hk] at hp
        rcases List.mem_cons.mp hp with hph | hpt
        · subst hph
          intro x hx
          rcases List.mem_append.mp hx with hxw | hxs
          · exact hv_head x hxw
          · rw [List.mem_singleton.mp hxs]; exact hs
        · exact hv_rest p hpt
      · rw [storeAppend, if_neg hk] at hp
        rcases List.mem_cons.mp hp with hph | hpt
        · subst hph; exact hv_head
        · exact ih hv_rest p hpt

theorem storeValid_append_day {st : Store} (hv : storeValid st) (d : String) :
    storeValid (st ++ [(d, [])]) := by
  intro p hp
  rcases List.mem_append.mp hp with hpl | hpr
  · exact hv p hpl
  · rw [List.mem_singleton.mp hpr]
    intro x hx
    simp at hx

theorem storePop_sublist (st : Store) (d : String) : storePop st d <+ st := by
  induction st with
  | nil => simp [storePop]
  | cons q rest ih =>
      obtain ⟨k, w⟩ := q
      by_cases hk : k = d
      · rw [storePop, if_pos hk]
        exact List.sublist_cons_self _ _
      · rw [storePop, if_neg hk]
        exact ih.cons₂ _

theorem storeValid_clear {st : Store} (hv : storeValid st) (od : Option String) :
    storeValid (clear_scores st od) := by
  cases od with
  | none => intro p hp; simp [clear_scores] at hp
  | some d =>
      by_cases hd : d = ""
      · intro p hp; simp [clear_scores, hd] at hp
      · intro p hp
        rw [clear_scores, if_neg hd] at hp
        exact hv p ((storePop_sublist st d).mem hp)

/-- Every reachable store satisfies the guesses-range invariant. -/
theorem reachable_storeValid {st : Store} (hr : Reachable st) : storeValid st := by
  induction hr with
  | empty => intro p hp; simp at hp
  | submit st g t d u ai ni idStr sc st2 _ hok ih =>
      obtain ⟨hg, hsc, hst2⟩ := submit_score_ok hok
      have hscg : 1 ≤ sc.guesses ∧ sc.guesses ≤ 6 := by rw [hsc]; exact hg
      subst hst2
      by_cases hc : storeContains st d
      · rw [if_pos hc]; exact storeValid_storeAppend ih hscg
      · rw [if_neg hc]; exact storeValid_storeAppend (storeValid_append_day ih d) hscg
  | clear st od _ ih => exact storeValid_clear ih od

/-- The invariant read through `getScores`. -/
theorem getScores_valid {st : Store} (hv : storeValid st) {d : String} {s : Score}
    (hs : s ∈ getScores st d) : 1 ≤ s.guesses ∧ s.guesses ≤ 6 := by
  unfold getScores at hs
  cases hg : storeGet st d with
  | none => rw [hg] at hs; simp at hs
  | some v =>
      rw [hg] at hs
      exact hv (d, v) (storeGet_mem hg) s hs

/-! ### Helper lemmas about the ranking computation -/

theorem mkEntries_length (r : Nat) (l : List Score) :
    (mkEntries r l).length = l.length := by
  induction l generalizing r with
  | nil => rfl
  | cons s rest ih => simp [mkEntries, ih]

theorem mem_mkEntries {e : LeaderboardEntry} :
    ∀ (r : Nat) (l : List Score), e ∈ mkEntries r l →
      ∃ i : Nat, ∃ hi : i < l.length, e = mkEntry (r + i) (l.get ⟨i, hi⟩)
  | r, [], h => by simp [mkEntries] at h
  | r, s :: rest, h => by
      rcases List.mem_cons.mp h with he | ht
      · exact ⟨0, by simp, by simpa using he⟩
      · obtain ⟨i, hi, hei⟩ := mem_mkEntries (r + 1) rest ht
        refine ⟨i + 1, by simpa using hi, ?_⟩
        have harith : r + (i + 1) = r + 1 + i := by omega
        rw [harith]
        simpa using hei

theorem mkEntries_map_rank (r : Nat) (l : List Score) :
    (mkEntries r l).map (fun e => e.rank) = List.range' r l.length := by
  induction l generalizing r with
  | nil => rfl
  | cons s rest ih => simp [mkEntries, mkEntry, List.range', ih]

theorem strRepeat_length (s : String) : ∀ m : Nat, (strRepeat s m).length = m * s.length
  | 0 => by simp [strRepeat]
  | m + 1 => by
      rw [strRepeat, String.length_append, strRepeat_length s m]
      ring

/-- `pyTake` is always a `take`, hence a sublist of its input. -/
theorem pyTake_sublist {α : Type} (l : List α) (n : Int) : pyTake l n <+ l := by
  unfold pyTake
  exact List.take_sublist _ _

/-- Stability of the sort under a predicate that forces equal sort keys:
filtering the sorted list gives exactly the filtered input, in input order. -/
theorem filter_insertionSort_of_key {p : Score → Bool}
    (hp : ∀ a b, p a = true → p b = true → scoreLe a b) (l : List Score) :
    (List.insertionSort scoreLe l).filter p = l.filter p := by
  have hpair : (l.filter p).Pairwise scoreLe := by
    apply List.pairwise_of_forall_mem_list
    intro a ha b hb
    exact hp a b (List.of_mem_filter ha) (List.of_mem_filter hb)
  have hsub : l.filter p <+ List.insertionSort scoreLe l :=
    List.sublist_insertionSort hpair (List.filter_sublist l)
  have hself : (l.filter p).filter p = l.filter p :=
    List.filter_eq_self.mpr fun a ha => List.of_mem_filter ha
  have hsub2 : l.filter p <+ (List.insertionSort scoreLe l).filter p := by
    have := hsub.filter p
    rwa [hself] at this
  have hperm : (List.insertionSort scoreLe l).filter p ~ l.filter p :=
    (List.perm_insertionSort scoreLe l).filter p
  exact (hsub2.eq_of_length hperm.length_eq.symm).symm

/-- Filtering the ranked entries on the score fields and projecting away
the rank is the same as filtering the underlying score list. -/
theorem mkEntries_filter_map (g t : Int) :
    ∀ (r : Nat) (l : List Score),
      ((mkEntries r l).filter (fun e => e.guesses == g && e.time_seconds == t)).map
          (fun e => (e.username, e.guesses, e.time_seconds)) =
        ((l.filter (fun s => s.guesses == g && s.time_seconds == t)).map
          (fun s => (s.username, s.guesses, s.time_seconds)))
  | r, [] => rfl
  | r, s :: rest => by
      by_cases hs : (s.guesses == g && s.time_seconds == t) = true
      · rw [mkEntries, List.filter_cons, List.filter_cons]
        have hs2 : ((mkEntry r s).guesses == g && (mkEntry r s).time_seconds == t) = true := hs
        rw [if_pos hs2, if_pos hs, List.map_cons, List.map_cons,
          mkEntries_filter_map g t (r + 1) rest]
        rfl
      · rw [mkEntries, List.filter_cons, List.filter_cons]
        have hs2 : ((mkEntry r s).guesses == g && (mkEntry r s).time_seconds == t) = false :=
          Bool.eq_false_iff.mpr hs
        rw [Bool.eq_false_iff.mp hs2 |> if_neg, Bool.eq_false_iff.mp (Bool.eq_false_iff.mpr hs) |> if_neg]
        exact mkEntries_filter_map g t (r + 1) rest

/-! ### Claim theorems -/

/-- C1 (counterexample): the Store does NOT reject `time_seconds < 0`.
Submitting `guesses = 3, time_seconds = -1` from the empty store succeeds,
and the resulting store — a reachable state — holds a record with negative
`time_seconds`.  This refutes the claimed invariant `time_seconds ≥ 0` and
the claimed rejection of negative times by the Store itself. -/
theorem C1_counterexample :
    Reachable [("2026-02-02", [⟨"u", 3, -1, "2026-02-02", "i1"⟩])] ∧
    (submit_score [] 3 (-1) "2026-02-02" (some "u") 0 0 "i1").1 =
      Except.ok ⟨"u", 3, -1, "2026-02-02", "i1"⟩ ∧
    getScores [("2026-02-02", [⟨"u", 3, -1, "2026-02-02", "i1"⟩])] "2026-02-02" =
      [⟨"u", 3, -1, "2026-02-02", "i1"⟩] ∧
    (⟨"u", 3, -1, "2026-02-02", "i1"⟩ : Score).time_seconds < 0 := by
  refine ⟨?_, rfl, rfl, by decide⟩
  exact Reachable.submit [] 3 (-1) "2026-02-02" (some "u") 0 0 "i1"
    ⟨"u", 3, -1, "2026-02-02", "i1"⟩ [("2026-02-02", [⟨"u", 3, -1, "2026-02-02", "i1"⟩])]
    Reachable.empty rfl

/-- C1 (amended): in every reachable store state, every stored record
satisfies `1 ≤ guesses ≤ 6`.  (The Store validates only `guesses`;
`time_seconds` is not checked by the Store — only by the HTTP layer.) -/
theorem C1_store_invariant_guesses {st : Store} (hr : Reachable st) (d : String)
    (s : Score) (hs : s ∈ getScores st d) : 1 ≤ s.guesses ∧ s.guesses ≤ 6 :=
  getScores_valid (reachable_storeValid hr) hs

/-- Witness for C1: the invariant evaluated on a concrete reachable store. -/
theorem C1_store_invariant_guesses_witness :
    1 ≤ (⟨"u", 4, 120, "2026-02-02", "i1"⟩ : Score).guesses ∧
    (⟨"u", 4, 120, "2026-02-02", "i1"⟩ : Score).guesses ≤ 6 :=
  C1_store_invariant_guesses
    (Reachable.submit [] 4 120 "2026-02-02" (some "u") 0 0 "i1"
      ⟨"u", 4, 120, "2026-02-02", "i1"⟩
      [("2026-02-02", [⟨"u", 4, 120, "2026-02-02", "i1"⟩])] Reachable.empty rfl)
    "2026-02-02" ⟨"u", 4, 120, "2026-02-02", "i1"⟩ (by decide)

/-- C2: for any store state and any `guesses` outside `[1, 6]`,
`submit_score` raises `ValueError` with the source's message and leaves the
store — in particular the day's collection size — completely unchanged. -/
theorem C2_invalid_guesses_rejected (st : Store) (g t : Int) (d : String)
    (u : Option String) (ai ni : Nat) (idStr : String)
    (hg : ¬ (1 ≤ g ∧ g ≤ 6)) :
    submit_score st g t d u ai ni idStr =
      (Except.error "Guesses must be between 1 and 6", st) ∧
    (getScores (submit_score st g t d u ai ni idStr).2 d).length =
      (getScores st d).length := by
  have h1 : submit_score st g t d u ai ni idStr =
      (Except.error "Guesses must be between 1 and 6", st) := by
    unfold submit_score
    rw [if_pos hg]
  exact ⟨h1, by rw [h1]⟩

/-- Witness for C2: `guesses = 0` is rejected and the store is unchanged. -/
theorem C2_invalid_guesses_rejected_witness :
    (¬ (1 ≤ (0 : Int) ∧ (0 : Int) ≤ 6)) ∧
    (submit_score [] 0 50 "2026-02-02" none 0 0 "i1" =
        (Except.error "Guesses must be between 1 and 6", []) ∧
      (getScores (submit_score [] 0 50 "2026-02-02" none 0 0 "i1").2 "2026-02-02").length =
        (getScores ([] : Store) "2026-02-02").length) :=
  ⟨by decide, C2_invalid_guesses_rejected [] 0 50 "2026-02-02" none 0 0 "i1" (by decide)⟩

/-- C3 (counterexample): the Store generates a username only when the
argument is `None`; a caller-supplied empty string is stored verbatim, so
the claim "the caller-supplied empty string is never stored" is false. -/
theorem C3_counterexample :
    (submit_score [] 3 100 "2026-02-02" (some "") 0 0 "i1").1 =
      Except.ok ⟨"", 3, 100, "2026-02-02", "i1"⟩ ∧
    getScores (submit_score [] 3 100 "2026-02-02" (some "") 0 0 "i1").2 "2026-02-02" =
      [⟨"", 3, 100, "2026-02-02", "i1"⟩] ∧
    (⟨"", 3, 100, "2026-02-02", "i1"⟩ : Score).username = "" :=
  ⟨rfl, rfl, rfl⟩

/-- C3 (amended): for every successful `submit_score` call with the
username argument omitted (`None`), the stored record's username is the
output of `generate_username`: one `ADJECTIVES` element concatenated with
one `NOUNS` element, no separator. -/
theorem C3_generated_username {st : Store} {g t : Int} {d : String} {ai ni : Nat}
    {idStr : String} {sc : Score} {st2 : Store}
    (h : submit_score st g t d none ai ni idStr = (Except.ok sc, st2)) :
    sc.username = generate_username ai ni ∧
    ∃ adj ∈ ADJECTIVES, ∃ noun ∈ NOUNS, sc.username = adj ++ noun := by
  obtain ⟨-, hsc, -⟩ := submit_score_ok h
  have husr : sc.username = generate_username ai ni := by rw [hsc]; rfl
  refine ⟨husr, ?_, ?_, ?_, ?_, ?_⟩
  · exact ADJECTIVES.get ⟨ai % ADJECTIVES.length, Nat.mod_lt ai (by decide)⟩
  · exact List.get_mem _ _ _
  · exact NOUNS.get ⟨ni % NOUNS.length, Nat.mod_lt ni (by decide)⟩
  · exact List.get_mem _ _ _
  · rw [husr]; rfl

/-- Witness for C3: with random draws `(2, 5)` the generated username is
`"Clever" ++ "Tiger"`. -/
theorem C3_generated_username_witness :
    (⟨"CleverTiger", 4, 120, "2026-02-02", "i1"⟩ : Score).username =
      generate_username 2 5 ∧
    ∃ adj ∈ ADJECTIVES, ∃ noun ∈ NOUNS,
      (⟨"CleverTiger", 4, 120, "2026-02-02", "i1"⟩ : Score).username = adj ++ noun :=
  @C3_generated_username [] 4 120 "2026-02-02" 2 5 "i1"
    ⟨"CleverTiger", 4, 120, "2026-02-02", "i1"⟩
    [("2026-02-02", [⟨"CleverTiger", 4, 120, "2026-02-02", "i1"⟩])] rfl

/-- C7: every successful `submit_score` appends exactly one record at the
end of the submitted day's collection (count increases by one), with every
other day's collection — and every previously stored record — unchanged. -/
theorem C7_additive_frame {st : Store} {g t : Int} {d : String} {u : Option String}
    {ai ni : Nat} {idStr : String} {sc : Score} {st2 : Store}
    (h : submit_score st g t d u ai ni idStr = (Except.ok sc, st2)) :
    getScores st2 d = getScores st d ++ [sc] ∧
    (getScores st2 d).length = (getScores st d).length + 1 ∧
    ∀ d2 : String, d2 ≠ d → getScores st2 d2 = getScores st d2 := by
  refine ⟨submit_ok_getScores_self h, ?_, fun d2 hne => submit_ok_getScores_other h hne⟩
  rw [submit_ok_getScores_self h, List.length_append]
  rfl

/-- Witness for C7: submitting to day `"b"` of a store holding day `"a"`
appends one record under `"b"` and leaves `"a"` untouched. -/
theorem C7_additive_frame_witness :
    (getScores [("a", [⟨"u1", 2, 30, "a", "i1"⟩]), ("b", [⟨"u2", 4, 120, "b", "i2"⟩])] "b" =
      getScores [("a", [⟨"u1", 2, 30, "a", "i1"⟩])] "b" ++ [⟨"u2", 4, 120, "b", "i2"⟩]) ∧
    (getScores [("a", [⟨"u1", 2, 30, "a", "i1"⟩]), ("b", [⟨"u2", 4, 120, "b", "i2"⟩])] "b").length =
      (getScores [("a", [⟨"u1", 2, 30, "a", "i1"⟩])] "b").length + 1 ∧
    getScores [("a", [⟨"u1", 2, 30, "a", "i1"⟩]), ("b", [⟨"u2", 4, 120, "b", "i2"⟩])] "a" =
      getScores [("a", [⟨"u1", 2, 30, "a", "i1"⟩])] "a" := by
  have h := @C7_additive_frame [("a", [⟨"u1", 2, 30, "a", "i1"⟩])] 4 120 "b" (some "u2") 0 0 "i2"
    ⟨"u2", 4, 120, "b", "i2"⟩
    [("a", [⟨"u1", 2, 30, "a", "i1"⟩]), ("b", [⟨"u2", 4, 120, "b", "i2"⟩])] rfl
  exact ⟨h.1, h.2.1, h.2.2 "a" (by decide)⟩

/-- C8: querying a day with no stored submissions never fails and returns
the empty entry list, for every limit. -/
theorem C8_empty_day {st : Store} {d : String} (h : getScores st d = [])
    (limit : Int) : get_leaderboard st d limit = [] := by
  unfold get_leaderboard rankEntries
  rw [h]
  show mkEntries 1 (pyTake ([] : List Score) limit) = []
  unfold pyTake
  rw [List.take_nil]
  rfl

/-- Witness for C8: the empty store has no records for any day. -/
theorem C8_empty_day_witness :
    getScores ([] : Store) "2026-02-02" = [] ∧
    get_leaderboard ([] : Store) "2026-02-02" 5 = [] :=
  ⟨rfl, @C8_empty_day [] "2026-02-02" rfl 5⟩

/-- C4: ordering law — in any `get_leaderboard` output, for entries
`a, b` with `a.rank < b.rank`, either `a.guesses < b.guesses`, or the
guesses are equal and `a.time_seconds ≤ b.time_seconds`. -/
theorem C4_ordering_law (st : Store) (d : String) (limit : Int)
    (a b : LeaderboardEntry)
    (ha : a ∈ get_leaderboard st d limit) (hb : b ∈ get_leaderboard st d limit)
    (hab : a.rank < b.rank) :
    a.guesses < b.guesses ∨
      (a.guesses = b.guesses ∧ a.time_seconds ≤ b.time_seconds) := by
  unfold get_leaderboard rankEntries at ha hb
  obtain ⟨i, hi, hai⟩ := mem_mkEntries _ _ ha
  obtain ⟨j, hj, hbj⟩ := mem_mkEntries _ _ hb
  have hsorted : (pyTake (List.insertionSort scoreLe (getScores st d)) limit).Pairwise scoreLe :=
    List.Pairwise.sublist (pyTake_sublist _ _)
      (List.sorted_insertionSort scoreLe (getScores st d))
  have hij : i < j := by
    have hra : a.rank = 1 + i := by rw [hai]; rfl
    have hrb : b.rank = 1 + j := by rw [hbj]; rfl
    omega
  have hrel := @List.Sorted.rel_get_of_lt Score scoreLe
    (pyTake (List.insertionSort scoreLe (getScores st d)) limit) hsorted
    ⟨i, hi⟩ ⟨j, hj⟩ (Fin.mk_lt_mk.mpr hij)
  rw [hai, hbj]
  exact hrel

/-- Witness for C4: the ordering law evaluated on a concrete two-entry
leaderboard. -/
theorem C4_ordering_law_witness :
    ((⟨1, "A", 3, "🟩🟩🟩", 95⟩ : LeaderboardEntry) ∈
      get_leaderboard [("d", [⟨"A", 3, 95, "d", "i1"⟩, ⟨"B", 4, 120, "d", "i2"⟩])] "d" 5) ∧
    ((⟨2, "B", 4, "🟩🟩🟩🟩", 120⟩ : LeaderboardEntry) ∈
      get_leaderboard [("d", [⟨"A", 3, 95, "d", "i1"⟩, ⟨"B", 4, 120, "d", "i2"⟩])] "d" 5) ∧
    ((⟨1, "A", 3, "🟩🟩🟩", 95⟩ : LeaderboardEntry).guesses <
        (⟨2, "B", 4, "🟩🟩🟩🟩", 120⟩ : LeaderboardEntry).guesses ∨
      ((⟨1, "A", 3, "🟩🟩🟩", 95⟩ : LeaderboardEntry).guesses =
          (⟨2, "B", 4, "🟩🟩🟩🟩", 120⟩ : LeaderboardEntry).guesses ∧
        (⟨1, "A", 3, "🟩🟩🟩", 95⟩ : LeaderboardEntry).time_seconds ≤
          (⟨2, "B", 4, "🟩🟩🟩🟩", 120⟩ : LeaderboardEntry).time_seconds)) :=
  ⟨by decide, by decide,
    C4_ordering_law [("d", [⟨"A", 3, 95, "d", "i1"⟩, ⟨"B", 4, 120, "d", "i2"⟩])] "d" 5
      ⟨1, "A", 3, "🟩🟩🟩", 95⟩ ⟨2, "B", 4, "🟩🟩🟩🟩", 120⟩
      (by decide) (by decide) (by decide)⟩

/-- C5: limit and rank-numbering law — for a limit in the caller-clamped
range `[1, 10]`, the ranked output has exactly `min limit len` entries and
their rank fields are `1, 2, ..., min limit len` in output order. -/
theorem C5_limit_rank_law (scores : List Score) (limit : Int)
    (h1 : 1 ≤ limit) (h10 : limit ≤ 10) :
    (rankEntries scores limit).length = min limit.toNat scores.length ∧
    (rankEntries scores limit).map (fun e => e.rank) =
      List.range' 1 (min limit.toNat scores.length) := by
  have hnn : 0 ≤ limit := by omega
  have hlen : (pyTake (List.insertionSort scoreLe scores) limit).length =
      min limit.toNat scores.length := by
    unfold pyTake
    rw [if_pos hnn, List.length_take, List.length_insertionSort]
  constructor
  · rw [rankEntries, mkEntries_length, hlen]
  · rw [rankEntries, mkEntries_map_rank, hlen]

/-- Witness for C5: three records, limit 2. -/
theorem C5_limit_rank_law_witness :
    ((1 : Int) ≤ 2 ∧ (2 : Int) ≤ 10) ∧
    (rankEntries [⟨"A", 3, 95, "d", "i1"⟩, ⟨"B", 4, 120, "d", "i2"⟩,
        ⟨"C", 3, 200, "d", "i3"⟩] 2).length = min (2 : Int).toNat 3 ∧
    (rankEntries [⟨"A", 3, 95, "d", "i1"⟩, ⟨"B", 4, 120, "d", "i2"⟩,
        ⟨"C", 3, 200, "d", "i3"⟩] 2).map (fun e => e.rank) =
      List.range' 1 (min (2 : Int).toNat 3) := by
  have h := C5_limit_rank_law [⟨"A", 3, 95, "d", "i1"⟩, ⟨"B", 4, 120, "d", "i2"⟩,
    ⟨"C", 3, 200, "d", "i3"⟩] 2 (by decide) (by decide)
  exact ⟨⟨by decide, by decide⟩, h.1, h.2⟩

/-- C6: tie stability and determinism — for every record list and limit,
the entries whose `(guesses, time_seconds)` key equals a given `(g, t)`,
projected to their record fields, form a sublist of the same-key records of
the input list in input (insertion) order, i.e. exact ties keep their
relative submission order; and ranking the same list twice with the same
limit yields identical output (the ranking is a pure function). -/
theorem C6_tie_stability (scores : List Score) (limit : Int) (g t : Int) :
    (((rankEntries scores limit).filter
        (fun e => e.guesses == g && e.time_seconds == t)).map
        (fun e => (e.username, e.guesses, e.time_seconds)) <+
      ((scores.filter (fun s => s.guesses == g && s.time_seconds == t)).map
        (fun s => (s.username, s.guesses, s.time_seconds)))) ∧
    rankEntries scores limit = rankEntries scores limit := by
  refine ⟨?_, rfl⟩
  rw [rankEntries, mkEntries_filter_map]
  have hkey : ∀ a b : Score, (a.guesses == g && a.time_seconds == t) = true →
      (b.guesses == g && b.time_seconds == t) = true → scoreLe a b := by
    intro a b ha hb
    simp only [Bool.and_eq_true, beq_iff_eq] at ha hb
    unfold scoreLe
    omega
  have hstep : (pyTake (List.insertionSort scoreLe scores) limit).filter
      (fun s => s.guesses == g && s.time_seconds == t) <+
      scores.filter (fun s => s.guesses == g && s.time_seconds == t) := by
    have h1 := (pyTake_sublist (List.insertionSort scoreLe scores) limit).filter
      (fun s => s.guesses == g && s.time_seconds == t)
    rwa [filter_insertionSort_of_key hkey] at h1
  exact hstep.map _

/-- C9: display law — every entry a leaderboard query produces on a
reachable store renders `guesses_display` as exactly `guesses` copies of
the marker glyph, so its glyph count (character length) equals `guesses`. -/
theorem C9_display_law {st : Store} (hr : Reachable st) (d : String) (limit : Int)
    (e : LeaderboardEntry) (he : e ∈ get_leaderboard st d limit) :
    e.guesses_display = strRepeat "🟩" e.guesses.toNat ∧
    (e.guesses_display.length : Int) = e.guesses := by
  unfold get_leaderboard rankEntries at he
  obtain ⟨i, hi, hei⟩ := mem_mkEntries _ _ he
  have hmem : (pyTake (List.insertionSort scoreLe (getScores st d)) limit).get ⟨i, hi⟩ ∈
      getScores st d := by
    have h1 := List.get_mem (pyTake (List.insertionSort scoreLe (getScores st d)) limit) i hi
    have h2 := (pyTake_sublist (List.insertionSort scoreLe (getScores st d)) limit).mem h1
    exact (List.mem_insertionSort scoreLe).mp h2
  have hval := getScores_valid (reachable_storeValid hr) hmem
  rw [hei]
  refine ⟨rfl, ?_⟩
  have hg0 : 0 ≤ ((pyTake (List.insertionSort scoreLe (getScores st d)) limit).get ⟨i, hi⟩).guesses := by
    omega
  show ((_format_guesses_emoji
    ((pyTake (List.insertionSort scoreLe (getScores st d)) limit).get ⟨i, hi⟩).guesses).length : Int) =
    ((pyTake (List.insertionSort scoreLe (getScores st d)) limit).get ⟨i, hi⟩).guesses
  unfold _format_guesses_emoji pyStrMul
  rw [strRepeat_length]
  have hglyph : ("🟩" : String).length = 1 := rfl
  rw [hglyph, Nat.mul_one, Int.toNat_of_nonneg hg0]

/-- Witness for C9: a concrete reachable store whose single entry displays
four marker glyphs for four guesses. -/
theorem C9_display_law_witness :
    (⟨1, "u", 4, "🟩🟩🟩🟩", 120⟩ : LeaderboardEntry).guesses_display =
      strRepeat "🟩" (⟨1, "u", 4, "🟩🟩🟩🟩", 120⟩ : LeaderboardEntry).guesses.toNat ∧
    ((⟨1, "u", 4, "🟩🟩🟩🟩", 120⟩ : LeaderboardEntry).guesses_display.length : Int) =
      (⟨1, "u", 4, "🟩🟩🟩🟩", 120⟩ : LeaderboardEntry).guesses :=
  C9_display_law
    (Reachable.submit [] 4 120 "d" (some "u") 0 0 "i1" ⟨"u", 4, 120, "d", "i1"⟩
      [("d", [⟨"u", 4, 120, "d", "i1"⟩])] Reachable.empty rfl)
    "d" 5 ⟨1, "u", 4, "🟩🟩🟩🟩", 120⟩ (by decide)
